import Mathlib

/-!
Verification development for the cascii terminal player (src/main.rs).

The frame-loading pipeline, the text normalizer, the directory scan, the
render loop over a decoded color grid, and the player event/tick loop are
embedded below as executable Lean definitions, translated from the Rust
source. Filenames and text are lists of characters; file bytes are lists
of naturals. The external core-library pieces that src does not contain
(the index extractor and the animation controller) are modelled from the
spec and marked as such.
-/

namespace Cascii

/-- ASCII lowercasing of a single character, as Rust to_ascii_lowercase. -/
def asciiLower (c : Char) : Char :=
  if 'A' ≤ c ∧ c ≤ 'Z' then Char.ofNat (c.toNat + 32) else c

/-- Case-insensitive ASCII equality on character lists,
as Rust eq_ignore_ascii_case on strings. -/
def eqIgnoreAsciiCase (a b : List Char) : Bool :=
  decide (a.map asciiLower = b.map asciiLower)

/-- Lexicographic comparison (as a boolean less-or-equal) on character
lists, mirroring the Ord instance Rust uses for String in sort_by. -/
def lexLe : List Char → List Char → Bool
  | [], _ => true
  | _ :: _, [] => false
  | a :: as, b :: bs =>
    if a.toNat < b.toNat then true
    else if b.toNat < a.toNat then false
    else lexLe as bs

/-- Split a filename at its last dot, provided that dot is not the leading
character: returns (stem, extension-candidate). Mirrors the behavior of
Rust Path file_stem / extension on a plain file name. -/
def findExt : List Char → Option (List Char × List Char)
  | [] => none
  | c :: cs =>
    match findExt cs with
    | some (st, ex) => some (c :: st, ex)
    | none => if c = '.' then some ([], cs) else none

/-- Rust Path.extension on a file name: the part after the last dot, when
that dot is not the first character; none otherwise. -/
def rustExtension (name : List Char) : Option (List Char) :=
  match findExt name with
  | some ([], _) => none
  | some (_ :: _, ex) => some ex
  | none => none

/-- Rust Path.file_stem on a file name: the part before the last dot when
an extension exists, the whole name otherwise. -/
def rustFileStem (name : List Char) : List Char :=
  match findExt name with
  | some ([], _) => name
  | some (c :: st, _) => c :: st
  | none => name

/-- Numeric value of a digit run, most significant first. -/
def digitsToNat (ds : List Char) : Nat :=
  ds.foldl (fun a c => a * 10 + (c.toNat - 48)) 0

/-- Modelled from the spec: FrameFile.extract_index lives in the external
core-view library, not under src. Per the FrameIndexer contract, when the
stem ends in a run of decimal digits the index is that numeric value
(leading zeros ignored, magnitude preserved); otherwise the fallback
ordinal (the discovery position of the file) is used. -/
def extract_index (stem : List Char) (fallback : Nat) : Nat :=
  let ds := (stem.reverse.takeWhile Char.isDigit).reverse
  if ds.isEmpty then fallback else digitsToNat ds

/-- One entry of a scanned directory: a name, whether it is a regular
file, and (when a file) its raw bytes. -/
structure DirEntry where
  name : List Char
  isFile : Bool
  data : List Nat
deriving DecidableEq

/-- The candidate filter of collect_frame_paths, applied to one enumerated
directory entry: regular files whose extension matches case-insensitively,
and, when the frame-name requirement is on, whose name starts with the
frame marker. Produces the sort key (extracted index, file name). -/
def selectEntry (ext : List Char) (onlyFramePrefixed : Bool) (p : Nat × DirEntry) :
    Option (Nat × List Char) :=
  if p.2.isFile = false then none
  else
    match rustExtension p.2.name with
    | none => none
    | some x =>
      if eqIgnoreAsciiCase x ext = false then none
      else if onlyFramePrefixed && !(("frame_".toList).isPrefixOf p.2.name) then none
      else some (extract_index (rustFileStem p.2.name) p.1, p.2.name)

/-- The comparator of collect_frame_paths: by extracted index first, then
by file name lexicographically. -/
def keyLe (a b : Nat × List Char) : Bool :=
  if a.1 < b.1 then true
  else if b.1 < a.1 then false
  else lexLe a.2 b.2

/-- The selected entries of a directory with their sort keys, in discovery
order, before sorting. -/
def collectIndexed (dir : List DirEntry) (ext : List Char) (onlyFramePrefixed : Bool) :
    List (Nat × List Char) :=
  dir.enum.filterMap (selectEntry ext onlyFramePrefixed)

/-- Ordered insertion for a boolean comparator, placing the new element
before the first list element it compares at-or-below. -/
def insertLe {α : Type} (le : α → α → Bool) (a : α) : List α → List α
  | [] => [a]
  | b :: bs => if le a b then a :: b :: bs else b :: insertLe le a bs

/-- Stable comparison sort by a boolean comparator, modelling the Rust
slice sort_by used on the (index, name) keys. -/
def sortLe {α : Type} (le : α → α → Bool) : List α → List α
  | [] => []
  | a :: l => insertLe le a (sortLe le l)

/-- collect_frame_paths from src: enumerate the directory, keep matching
regular files, sort by (extracted index, name), return the file names. -/
def collect_frame_paths (dir : List DirEntry) (ext : List Char) (onlyFramePrefixed : Bool) :
    List (List Char) :=
  ((sortLe keyLe (collectIndexed dir ext onlyFramePrefixed)).map Prod.snd)

/-- normalize_frame_text from src: append one newline when the text does
not already end with one; otherwise return the text unchanged. -/
def normalize_frame_text (t : List Char) : List Char :=
  if t.getLast? = some '\n' then t else t ++ ['\n']

/-- A playback frame: text content plus an optional decoded color grid of
an abstract grid type. -/
structure Frame (γ : Type) where
  content : List Char
  cframe : Option γ

/-- Frame.with_color from the core view: a frame carrying a color grid. -/
def Frame.with_color {γ : Type} (t : List Char) (c : γ) : Frame γ := ⟨t, some c⟩

/-- Frame.text_only from the core view: a frame with no color grid. -/
def Frame.text_only {γ : Type} (t : List Char) : Frame γ := ⟨t, none⟩

/-- Load-time failure classes: the distinguished no-frames condition,
file-read failures, and binary-format parse failures. -/
inductive LoadError where
  | noFrames
  | ioError
  | formatError
deriving DecidableEq

/-- Read the bytes of a named directory entry; reading a missing entry or
a non-regular-file entry fails as an I/O error. -/
def readFile (dir : List DirEntry) (name : List Char) : Except LoadError (List Nat) :=
  match dir.find? (fun e => decide (e.name = name)) with
  | none => .error .ioError
  | some e => if e.isFile then .ok e.data else .error .ioError

/-- Whether any directory entry (of any kind) has the given name, as the
Rust Path.exists check used for binary siblings. -/
def existsEntry (dir : List DirEntry) (name : List Char) : Bool :=
  dir.any (fun e => decide (e.name = name))

/-- Except-valued map over a list, failing at the first failure, as the
sequential frame-building for-loops in load_frames. -/
def mapE {α β ε : Type} (f : α → Except ε β) : List α → Except ε (List β)
  | [] => .ok []
  | a :: as =>
    match f a with
    | .error e => .error e
    | .ok b =>
      match mapE f as with
      | .error e => .error e
      | .ok bs => .ok (b :: bs)

/-- The binary-mode frame builder of load_frames: read the file, decode
the color grid from its bytes, extract the text from the same bytes. The
two decoders are parameters, standing for parse_cframe and
parse_cframe_text of the core library. -/
def buildBinaryFrame {γ : Type} (pc : List Nat → Option γ) (pt : List Nat → Option (List Char))
    (dir : List DirEntry) (name : List Char) : Except LoadError (Frame γ) :=
  match readFile dir name with
  | .error e => .error e
  | .ok data =>
    match pc data with
    | none => .error .formatError
    | some cf =>
      match pt data with
      | none => .error .formatError
      | some t => .ok (Frame.with_color t cf)

/-- The text-mode frame builder of load_frames: read and decode the text
file, normalize it, and when a sibling entry with the same stem and the
cframe extension exists, read and decode that binary for the color grid;
otherwise build a text-only frame. The toText parameter stands for the
UTF-8 decoding of read_to_string. -/
def buildTextFrame {γ : Type} (pc : List Nat → Option γ) (toText : List Nat → Option (List Char))
    (dir : List DirEntry) (name : List Char) : Except LoadError (Frame γ) :=
  match readFile dir name with
  | .error e => .error e
  | .ok data =>
    match toText data with
    | none => .error .ioError
    | some content =>
      if existsEntry dir (rustFileStem name ++ '.' :: "cframe".toList) then
        match readFile dir (rustFileStem name ++ '.' :: "cframe".toList) with
        | .error e => .error e
        | .ok d =>
          match pc d with
          | none => .error .formatError
          | some cf => .ok (Frame.with_color (normalize_frame_text content) cf)
      else .ok (Frame.text_only (normalize_frame_text content))

/-- load_frames from src: scan for cframe files first; when any exist,
build every frame from them. Otherwise scan for frame-named txt files;
when none exist either, fail with the no-frames error; otherwise build
each frame from its text file, optionally paired with a stem-matching
binary sibling. -/
def load_frames {γ : Type} (pc : List Nat → Option γ) (pt : List Nat → Option (List Char))
    (toText : List Nat → Option (List Char)) (dir : List DirEntry) :
    Except LoadError (List (Frame γ)) :=
  let cpaths := collect_frame_paths dir ("cframe".toList) false
  if cpaths.isEmpty = false then
    mapE (buildBinaryFrame pc pt dir) cpaths
  else
    let tpaths := collect_frame_paths dir ("txt".toList) true
    if tpaths.isEmpty then .error .noFrames
    else mapE (buildTextFrame pc toText dir) tpaths

theorem charToNat_inj {c d : Char} (h : c.toNat = d.toNat) : c = d :=
  Char.ofNat_toNat c ▸ Char.ofNat_toNat d ▸ congrArg Char.ofNat h

theorem lexLe_total (a b : List Char) : (lexLe a b || lexLe b a) = true := by
  induction a generalizing b with
  | nil => simp [lexLe]
  | cons x xs ih =>
    cases b with
    | nil => simp [lexLe]
    | cons y ys =>
      by_cases h1 : x.toNat < y.toNat
      · simp [lexLe, h1]
      · by_cases h2 : y.toNat < x.toNat
        · simp [lexLe, h1, h2]
        · simp [lexLe, h1, h2, ih ys]

theorem lexLe_cases (a b : List Char) (h : lexLe a b = true) :
    a = [] ∨ ∃ x xs y ys, a = x :: xs ∧ b = y :: ys ∧
      (x.toNat < y.toNat ∨ (x = y ∧ lexLe xs ys = true)) := by
  cases a with
  | nil => exact Or.inl rfl
  | cons x xs =>
    cases b with
    | nil => simp [lexLe] at h
    | cons y ys =>
      refine Or.inr ⟨x, xs, y, ys, rfl, rfl, ?_⟩
      simp only [lexLe] at h
      rcases Nat.lt_trichotomy x.toNat y.toNat with h1 | h1 | h1
      · exact Or.inl h1
      · rw [if_neg (by omega), if_neg (by omega)] at h
        exact Or.inr ⟨charToNat_inj h1, h⟩
      · rw [if_neg (by omega), if_pos h1] at h
        exact absurd h (by simp)

theorem lexLe_of_lt {x y : Char} (xs ys : List Char) (h : x.toNat < y.toNat) :
    lexLe (x :: xs) (y :: ys) = true := by
  simp only [lexLe]
  rw [if_pos h]

theorem lexLe_cons_self {x : Char} {xs ys : List Char} (h : lexLe xs ys = true) :
    lexLe (x :: xs) (x :: ys) = true := by
  simp only [lexLe]
  rw [if_neg (by omega), if_neg (by omega)]
  exact h

theorem lexLe_trans (a b c : List Char) (hab : lexLe a b = true) (hbc : lexLe b c = true) :
    lexLe a c = true := by
  induction a generalizing b c with
  | nil => simp [lexLe]
  | cons x xs ih =>
    rcases lexLe_cases _ _ hab with h | ⟨x1, xs1, y, ys, hx, hb, hstep1⟩
    · exact absurd h (by simp)
    · cases hx
      subst hb
      rcases lexLe_cases _ _ hbc with h | ⟨y1, ys1, z, zs, hy, hc, hstep2⟩
      · exact absurd h (by simp)
      · cases hy
        subst hc
        rcases hstep1 with h1 | ⟨h1, h1r⟩ <;> rcases hstep2 with h2 | ⟨h2, h2r⟩
        · exact lexLe_of_lt _ _ (Nat.lt_trans h1 h2)
        · exact lexLe_of_lt _ _ (h2 ▸ h1)
        · exact lexLe_of_lt _ _ (h1 ▸ h2)
        · subst h1; subst h2
          exact lexLe_cons_self (ih _ _ h1r h2r)

theorem lexLe_antisymm (a b : List Char) (hab : lexLe a b = true) (hba : lexLe b a = true) :
    a = b := by
  induction a generalizing b with
  | nil =>
    cases b with
    | nil => rfl
    | cons y ys => simp [lexLe] at hba
  | cons x xs ih =>
    rcases lexLe_cases _ _ hab with h | ⟨x1, xs1, y, ys, hx, hb, hstep1⟩
    · exact absurd h (by simp)
    · cases hx
      subst hb
      rcases lexLe_cases _ _ hba with h | ⟨y1, ys1, z, zs, hy, hc, hstep2⟩
      · exact absurd h (by simp)
      · cases hy
        cases hc
        rcases hstep1 with h1 | ⟨h1, h1r⟩ <;> rcases hstep2 with h2 | ⟨h2, h2r⟩
        · omega
        · exact absurd (h2 ▸ h1) (by omega)
        · exact absurd (h1 ▸ h2) (by omega)
        · subst h1
          rw [ih _ h1r h2r]

theorem keyLe_total (a b : Nat × List Char) : (keyLe a b || keyLe b a) = true := by
  unfold keyLe
  rcases Nat.lt_trichotomy a.1 b.1 with h1 | h1 | h1
  · rw [if_pos h1]; simp
  · rw [if_neg (by omega), if_neg (by omega), if_neg (by omega), if_neg (by omega)]
    exact lexLe_total a.2 b.2
  · rw [if_neg (by omega), if_pos h1]; simp [h1]

theorem keyLe_trans (a b c : Nat × List Char) (hab : keyLe a b = true) (hbc : keyLe b c = true) :
    keyLe a c = true := by
  unfold keyLe at hab hbc ⊢
  rcases Nat.lt_trichotomy a.1 b.1 with h1 | h1 | h1 <;>
    rcases Nat.lt_trichotomy b.1 c.1 with h2 | h2 | h2
  · rw [if_pos (by omega)]
  · rw [if_pos (by omega)]
  · rw [if_neg (by omega), if_pos h2] at hbc; exact absurd hbc (by simp)
  · rw [if_pos (by omega)]
  · rw [if_neg (by omega), if_neg (by omega)] at hab hbc
    rw [if_neg (by omega), if_neg (by omega)]
    exact lexLe_trans a.2 b.2 c.2 hab hbc
  · rw [if_neg (by omega), if_pos h2] at hbc; exact absurd hbc (by simp)
  · rw [if_neg (by omega), if_pos h1] at hab; exact absurd hab (by simp)
  · rw [if_neg (by omega), if_pos h1] at hab; exact absurd hab (by simp)
  · rw [if_neg (by omega), if_pos h1] at hab; exact absurd hab (by simp)

theorem keyLe_antisymm (a b : Nat × List Char) (hab : keyLe a b = true) (hba : keyLe b a = true) :
    a = b := by
  unfold keyLe at hab hba
  rcases Nat.lt_trichotomy a.1 b.1 with h1 | h1 | h1
  · rw [if_neg (by omega), if_pos h1] at hba; exact absurd hba (by simp)
  · rw [if_neg (by omega), if_neg (by omega)] at hab hba
    exact Prod.ext h1 (lexLe_antisymm a.2 b.2 hab hba)
  · rw [if_neg (by omega), if_pos h1] at hab; exact absurd hab (by simp)

theorem insertLe_perm {α : Type} (le : α → α → Bool) (a : α) (l : List α) :
    (insertLe le a l).Perm (a :: l) := by
  induction l with
  | nil => exact List.Perm.refl _
  | cons b bs ih =>
    unfold insertLe
    by_cases h : le a b = true
    · rw [if_pos h]
    · rw [if_neg h]
      exact (ih.cons b).trans (List.Perm.swap a b bs)

theorem sortLe_perm {α : Type} (le : α → α → Bool) (l : List α) :
    (sortLe le l).Perm l := by
  induction l with
  | nil => exact List.Perm.refl _
  | cons a as ih =>
    exact (insertLe_perm le a (sortLe le as)).trans (ih.cons a)

theorem mem_insertLe {α : Type} (le : α → α → Bool) (a : α) (l : List α) (x : α) :
    x ∈ insertLe le a l ↔ x = a ∨ x ∈ l := by
  rw [(insertLe_perm le a l).mem_iff]
  simp

theorem insertLe_pairwise {α : Type} {le : α → α → Bool}
    (htrans : ∀ a b c, le a b = true → le b c = true → le a c = true)
    (htotal : ∀ a b, (le a b || le b a) = true)
    (a : α) (l : List α) (h : l.Pairwise (fun x y => le x y = true)) :
    (insertLe le a l).Pairwise (fun x y => le x y = true) := by
  induction l with
  | nil => simp [insertLe]
  | cons b bs ih =>
    rw [List.pairwise_cons] at h
    obtain ⟨hb, hbs⟩ := h
    unfold insertLe
    by_cases hab : le a b = true
    · rw [if_pos hab]
      rw [List.pairwise_cons]
      refine ⟨?_, List.pairwise_cons.mpr ⟨hb, hbs⟩⟩
      intro x hx
      rcases List.mem_cons.mp hx with hxb | hxbs
      · rw [hxb]; exact hab
      · exact htrans a b x hab (hb x hxbs)
    · rw [if_neg hab]
      rw [List.pairwise_cons]
      refine ⟨?_, ih hbs⟩
      intro x hx
      rcases (mem_insertLe le a bs x).mp hx with hxa | hxbs
      · rw [hxa]
        have := htotal a b
        rw [Bool.eq_false_iff.mpr hab] at this
        simpa using this
      · exact hb x hxbs

theorem sortLe_sorted {α : Type} {le : α → α → Bool}
    (htrans : ∀ a b c, le a b = true → le b c = true → le a c = true)
    (htotal : ∀ a b, (le a b || le b a) = true)
    (l : List α) :
    (sortLe le l).Pairwise (fun x y => le x y = true) := by
  induction l with
  | nil => simp [sortLe]
  | cons a as ih => exact insertLe_pairwise htrans htotal a (sortLe le as) ih

theorem mapE_ok_length {α β ε : Type} {f : α → Except ε β} {l : List α} {r : List β}
    (h : mapE f l = .ok r) : r.length = l.length := by
  induction l generalizing r with
  | nil => simp [mapE] at h; simp [← h]
  | cons a as ih =>
    simp only [mapE] at h
    cases hfa : f a with
    | error e => rw [hfa] at h; exact absurd h (by simp)
    | ok b =>
      rw [hfa] at h
      cases hm : mapE f as with
      | error e => rw [hm] at h; exact absurd h (by simp)
      | ok bs =>
        rw [hm] at h
        cases h
        simp [ih hm]

theorem mapE_ok_get {α β ε : Type} {f : α → Except ε β} {l : List α} {r : List β}
    (h : mapE f l = .ok r) (i : Nat) (hi : i < l.length) (hr : i < r.length) :
    f (l.get ⟨i, hi⟩) = .ok (r.get ⟨i, hr⟩) := by
  induction l generalizing r i with
  | nil => simp at hi
  | cons a as ih =>
    simp only [mapE] at h
    cases hfa : f a with
    | error e => rw [hfa] at h; exact absurd h (by simp)
    | ok b =>
      rw [hfa] at h
      cases hm : mapE f as with
      | error e => rw [hm] at h; exact absurd h (by simp)
      | ok bs =>
        rw [hm] at h
        cases h
        cases i with
        | zero => simpa using hfa
        | succ j => exact ih hm j (by simpa using hi) (by simpa using hr)

theorem mapE_error_mem {α β ε : Type} {f : α → Except ε β} {l : List α} {e : ε}
    (h : mapE f l = .error e) : ∃ a ∈ l, f a = .error e := by
  induction l with
  | nil => simp [mapE] at h
  | cons a as ih =>
    simp only [mapE] at h
    cases hfa : f a with
    | error e2 =>
      rw [hfa] at h
      cases h
      exact ⟨a, by simp, hfa⟩
    | ok b =>
      rw [hfa] at h
      cases hm : mapE f as with
      | error e2 =>
        rw [hm] at h
        cases h
        obtain ⟨x, hx, hfx⟩ := ih hm
        exact ⟨x, by simp [hx], hfx⟩
      | ok bs => rw [hm] at h; exact absurd h (by simp)

theorem mapE_ok_mem {α β ε : Type} {f : α → Except ε β} {l : List α} {r : List β}
    (h : mapE f l = .ok r) {b : β} (hb : b ∈ r) : ∃ a ∈ l, f a = .ok b := by
  induction l generalizing r with
  | nil => simp [mapE] at h; subst h; simp at hb
  | cons a as ih =>
    simp only [mapE] at h
    cases hfa : f a with
    | error e => rw [hfa] at h; exact absurd h (by simp)
    | ok b0 =>
      rw [hfa] at h
      cases hm : mapE f as with
      | error e => rw [hm] at h; exact absurd h (by simp)
      | ok bs =>
        rw [hm] at h
        cases h
        rcases List.mem_cons.mp hb with hb0 | hbs
        · exact ⟨a, by simp, hb0 ▸ hfa⟩
        · obtain ⟨x, hx, hfx⟩ := ih hm hbs
          exact ⟨x, by simp [hx], hfx⟩

/-- The selection condition of collect_frame_paths as a predicate on one
directory entry: a regular file whose extension matches case-insensitively
and, when required, whose name carries the frame marker. -/
def isCandidate (ext : List Char) (onlyFramePrefixed : Bool) (e : DirEntry) : Prop :=
  e.isFile = true ∧
  (∃ x, rustExtension e.name = some x ∧ eqIgnoreAsciiCase x ext = true) ∧
  (onlyFramePrefixed = true → (("frame_".toList).isPrefixOf e.name) = true)

theorem selectEntry_eq_some_iff (ext : List Char) (pre : Bool) (p : Nat × DirEntry)
    (q : Nat × List Char) :
    selectEntry ext pre p = some q ↔
      isCandidate ext pre p.2 ∧ q = (extract_index (rustFileStem p.2.name) p.1, p.2.name) := by
  unfold selectEntry isCandidate
  cases hf : p.2.isFile with
  | false => simp [hf]
  | true =>
    cases hx : rustExtension p.2.name with
    | none => simp [hf, hx]
    | some x =>
      cases hic : eqIgnoreAsciiCase x ext with
      | false => simp [hf, hx, hic]
      | true =>
        cases pre with
        | false =>
          simp [hf, hx, hic]
          exact eq_comm
        | true =>
          cases hp : ("frame_".toList).isPrefixOf p.2.name with
          | false => simp [hf, hx, hic, hp]
          | true =>
            simp [hf, hx, hic, hp]
            exact eq_comm

theorem selectEntry_eq_none_iff (ext : List Char) (pre : Bool) (p : Nat × DirEntry) :
    selectEntry ext pre p = none ↔ ¬ isCandidate ext pre p.2 := by
  constructor
  · intro h hc
    cases hq : selectEntry ext pre p with
    | none =>
      rcases hc with ⟨h1, ⟨x, hx, hic⟩, h3⟩
      have := (selectEntry_eq_some_iff ext pre p
        (extract_index (rustFileStem p.2.name) p.1, p.2.name)).mpr
        ⟨⟨h1, ⟨x, hx, hic⟩, h3⟩, rfl⟩
      rw [h] at this
      exact absurd this (by simp)
    | some q => rw [hq] at h; exact absurd h (by simp)
  · intro h
    cases hq : selectEntry ext pre p with
    | none => rfl
    | some q =>
      exact absurd ((selectEntry_eq_some_iff ext pre p q).mp hq).1 h

theorem collectIndexed_eq_nil_iff (dir : List DirEntry) (ext : List Char) (pre : Bool) :
    collectIndexed dir ext pre = [] ↔ ∀ e ∈ dir, ¬ isCandidate ext pre e := by
  unfold collectIndexed
  rw [List.filterMap_eq_nil]
  constructor
  · intro h e he
    obtain ⟨n, hn⟩ := List.mem_iff_get.mp he
    have hlen : (n : Nat) < dir.enum.length := by
      simpa [List.enum_length] using n.isLt
    have hget : dir.enum[(n : Nat)] = ((n : Nat), dir[(n : Nat)]) :=
      List.getElem_enum dir (n : Nat) hlen
    have hmem : ((n : Nat), e) ∈ dir.enum := by
      have : dir[(n : Nat)] = e := by
        simpa [List.get_eq_getElem] using hn
      rw [← this]
      exact hget ▸ List.getElem_mem hlen
    exact (selectEntry_eq_none_iff ext pre ((n : Nat), e)).mp (h _ hmem)
  · intro h p hp
    apply (selectEntry_eq_none_iff ext pre p).mpr
    apply h
    have := List.enum_map_snd dir
    rw [← this]
    exact List.mem_map_of_mem _ hp

theorem collect_frame_paths_eq_nil_iff (dir : List DirEntry) (ext : List Char) (pre : Bool) :
    collect_frame_paths dir ext pre = [] ↔ ∀ e ∈ dir, ¬ isCandidate ext pre e := by
  unfold collect_frame_paths
  rw [List.map_eq_nil]
  constructor
  · intro h
    have hperm := sortLe_perm keyLe (collectIndexed dir ext pre)
    rw [h] at hperm
    exact (collectIndexed_eq_nil_iff dir ext pre).mp hperm.nil_eq.symm
  · intro h
    have : collectIndexed dir ext pre = [] := (collectIndexed_eq_nil_iff dir ext pre).mpr h
    simp [this, sortLe]

theorem mem_collect_frame_paths_iff (dir : List DirEntry) (ext : List Char) (pre : Bool)
    (name : List Char) :
    name ∈ collect_frame_paths dir ext pre ↔
      ∃ e ∈ dir, e.name = name ∧ isCandidate ext pre e := by
  unfold collect_frame_paths
  rw [List.mem_map]
  constructor
  · rintro ⟨p, hp, hsnd⟩
    have hp2 : p ∈ collectIndexed dir ext pre :=
      ((sortLe_perm keyLe _).mem_iff).mp hp
    unfold collectIndexed at hp2
    obtain ⟨q, hq, hsel⟩ := List.mem_filterMap.mp hp2
    obtain ⟨hcand, hqeq⟩ := (selectEntry_eq_some_iff ext pre q p).mp hsel
    refine ⟨q.2, ?_, ?_, hcand⟩
    · have := List.enum_map_snd dir
      rw [← this]
      exact List.mem_map_of_mem _ hq
    · rw [← hsnd, hqeq]
  · rintro ⟨e, he, hname, hcand⟩
    obtain ⟨n, hn⟩ := List.mem_iff_get.mp he
    refine ⟨(extract_index (rustFileStem e.name) (n : Nat), e.name), ?_, hname⟩
    apply ((sortLe_perm keyLe _).mem_iff).mpr
    unfold collectIndexed
    apply List.mem_filterMap.mpr
    refine ⟨((n : Nat), e), ?_, ?_⟩
    · have hlen : (n : Nat) < dir.enum.length := by
        simpa [List.enum_length] using n.isLt
      have hget : dir.enum[(n : Nat)] = ((n : Nat), dir[(n : Nat)]) :=
        List.getElem_enum dir (n : Nat) hlen
      have heq : dir[(n : Nat)] = e := by
        simpa [List.get_eq_getElem] using hn
      rw [← heq]
      exact hget ▸ List.getElem_mem hlen
    · exact (selectEntry_eq_some_iff ext pre ((n : Nat), e) _).mpr ⟨hcand, rfl⟩

theorem findExt_eq_none_of_no_dot (l : List Char) (h : ∀ c ∈ l, c ≠ '.') :
    findExt l = none := by
  induction l with
  | nil => rfl
  | cons c cs ih =>
    unfold findExt
    rw [ih (fun x hx => h x (by simp [hx]))]
    rw [if_neg (h c (by simp))]

theorem findExt_append_ext (st ex : List Char) (hex : ∀ c ∈ ex, c ≠ '.') :
    findExt (st ++ '.' :: ex) = some (st, ex) := by
  induction st with
  | nil =>
    simp only [List.nil_append]
    unfold findExt
    rw [findExt_eq_none_of_no_dot ex hex]
    simp
  | cons c cs ih =>
    show findExt (c :: (cs ++ '.' :: ex)) = some (c :: cs, ex)
    unfold findExt
    rw [ih]

theorem rustExtension_stem_cframe (st : List Char) (hst : st ≠ []) :
    rustExtension (st ++ '.' :: "cframe".toList) = some ("cframe".toList) := by
  unfold rustExtension
  rw [findExt_append_ext st _ (by decide)]
  cases st with
  | nil => exact absurd rfl hst
  | cons c cs => rfl

theorem rustFileStem_ne_nil_of_ext {name x : List Char} (h : rustExtension name = some x) :
    rustFileStem name ≠ [] := by
  unfold rustExtension at h
  unfold rustFileStem
  cases hf : findExt name with
  | none => rw [hf] at h; exact absurd h (by simp)
  | some p =>
    rw [hf] at h
    cases p with
    | mk st ex =>
      cases st with
      | nil => exact absurd h (by simp)
      | cons c cs => simp

/-- Number of newline characters at the end of a text. -/
def trailingNewlineCount (t : List Char) : Nat :=
  (t.reverse.takeWhile (fun c => c = '\n')).length

theorem head_reverse_eq_getLast? (t : List Char) : t.reverse.head? = t.getLast? := by
  cases h : t.reverse with
  | nil =>
    have : t = [] := by simpa using congrArg List.reverse h
    simp [this]
  | cons c cs =>
    have : t = (c :: cs).reverse := by
      have := congrArg List.reverse h
      simpa using this
    rw [this]
    simp [List.getLast?_reverse]

/-- Claim C3 counterexample: on an input that already ends with two
newlines, normalize_frame_text returns it unchanged, so the output ends
with two trailing line terminators, not exactly one. -/
theorem C3_counterexample_normalize_two_newlines :
    normalize_frame_text ("a\n\n".toList) = ("a\n\n".toList) ∧
    trailingNewlineCount (normalize_frame_text ("a\n\n".toList)) = 2 := by
  constructor <;> decide

/-- Claim C3 (amended): normalize_frame_text returns the input unchanged
when it already ends with a newline (multiple trailing newlines are not
collapsed), and otherwise appends exactly one newline, leaving the rest
of the input byte-identical; in every case the output ends with at least
one newline, and an input with no trailing newline yields exactly one. -/
theorem C3_normalize_frame_text_amended (t : List Char) :
    (t.getLast? = some '\n' → normalize_frame_text t = t) ∧
    (t.getLast? ≠ some '\n' →
      normalize_frame_text t = t ++ ['\n'] ∧
      trailingNewlineCount (normalize_frame_text t) = 1) ∧
    (normalize_frame_text t).getLast? = some '\n' := by
  refine ⟨fun h => ?_, fun h => ?_, ?_⟩
  · unfold normalize_frame_text
    rw [if_pos h]
  · have heq : normalize_frame_text t = t ++ ['\n'] := by
      unfold normalize_frame_text
      rw [if_neg h]
    refine ⟨heq, ?_⟩
    rw [heq]
    unfold trailingNewlineCount
    rw [List.reverse_append]
    simp only [List.reverse_cons, List.reverse_nil, List.nil_append, List.cons_append,
      List.takeWhile]
    have hrev : t.reverse.takeWhile (fun c => c = '\n') = [] := by
      cases hr : t.reverse with
      | nil => rfl
      | cons c cs =>
        have hc : c ≠ '\n' := by
          intro hceq
          apply h
          rw [← head_reverse_eq_getLast?, hr, hceq]
          rfl
        simp [List.takeWhile, hc]
    simp [hrev]
  · unfold normalize_frame_text
    by_cases h : t.getLast? = some '\n'
    · rw [if_pos h]; exact h
    · rw [if_neg h]
      exact List.getLast?_concat t

/-- The directory of the spec example for frame ordering: three binary
frame files whose numeric suffixes are 2, 10 and 1, discovered in that
order. -/
def orderingExampleDir : List DirEntry :=
  [⟨"frame_2.cframe".toList, true, []⟩,
   ⟨"frame_10.cframe".toList, true, []⟩,
   ⟨"frame_1.cframe".toList, true, []⟩]

/-- Claim C5: collect_frame_paths orders the selected files by the pair
(extracted numeric index, filename): the sorted key list is pairwise
ordered under the index-then-lexicographic-name comparator and is a
permutation of the selected entries; the comparator is total and
antisymmetric, so the order is a deterministic strict total order, and
two entries share a sort key only when their filenames are equal; the
spec example with numeric suffixes 2, 10, 1 sorts numerically as
1, 2, 10 rather than lexicographically. -/
theorem C5_collect_frame_paths_ordering :
    (∀ (dir : List DirEntry) (ext : List Char) (pre : Bool),
      (sortLe keyLe (collectIndexed dir ext pre)).Pairwise (fun a b => keyLe a b = true) ∧
      (sortLe keyLe (collectIndexed dir ext pre)).Perm (collectIndexed dir ext pre)) ∧
    (∀ a b : Nat × List Char, (keyLe a b || keyLe b a) = true) ∧
    (∀ a b : Nat × List Char, keyLe a b = true → keyLe b a = true → a = b) ∧
    (∀ a b : Nat × List Char, a.2 ≠ b.2 → a ≠ b) ∧
    collect_frame_paths orderingExampleDir ("cframe".toList) false =
      ["frame_1.cframe".toList, "frame_2.cframe".toList, "frame_10.cframe".toList] := by
  refine ⟨fun dir ext pre => ⟨?_, sortLe_perm keyLe _⟩,
    keyLe_total, keyLe_antisymm, ?_, by decide⟩
  · exact sortLe_sorted keyLe_trans keyLe_total _
  · intro a b hne heq
    exact hne (congrArg Prod.snd heq)

/-- Claim C10: membership in the scan result of collect_frame_paths is
exactly: some directory entry with that name is a regular file, its
extension matches the requested one ASCII-case-insensitively, and, when
the frame-name requirement is on (the txt scan), its name starts with
the frame marker; entries without extension, with another extension, or
without the marker when required, are excluded. With the requirement off
(the cframe scan), no name constraint applies. -/
theorem C10_collect_frame_paths_membership (dir : List DirEntry) (ext : List Char)
    (pre : Bool) (name : List Char) :
    name ∈ collect_frame_paths dir ext pre ↔
      ∃ e ∈ dir, e.name = name ∧ e.isFile = true ∧
        (∃ x, rustExtension e.name = some x ∧ eqIgnoreAsciiCase x ext = true) ∧
        (pre = true → (("frame_".toList).isPrefixOf e.name) = true) := by
  rw [mem_collect_frame_paths_iff]
  unfold isCandidate
  constructor
  · rintro ⟨e, he, hname, h1, h2, h3⟩
    exact ⟨e, he, hname, h1, h2, h3⟩
  · rintro ⟨e, he, hname, h1, h2, h3⟩
    exact ⟨e, he, hname, h1, h2, h3⟩

theorem readFile_error_eq {dir : List DirEntry} {name : List Char} {e : LoadError}
    (h : readFile dir name = .error e) : e = .ioError := by
  unfold readFile at h
  split at h
  · cases h; rfl
  · split at h
    · exact absurd h (by simp)
    · cases h; rfl

theorem buildBinaryFrame_ne_noFrames {γ : Type} (pc : List Nat → Option γ)
    (pt : List Nat → Option (List Char)) (dir : List DirEntry) (name : List Char) :
    buildBinaryFrame pc pt dir name ≠ .error .noFrames := by
  unfold buildBinaryFrame
  split
  · rename_i e he
    have := readFile_error_eq he
    subst this
    simp
  · split
    · simp
    · split
      · simp
      · simp

theorem buildTextFrame_ne_noFrames {γ : Type} (pc : List Nat → Option γ)
    (toText : List Nat → Option (List Char)) (dir : List DirEntry) (name : List Char) :
    buildTextFrame pc toText dir name ≠ .error .noFrames := by
  unfold buildTextFrame
  split
  · rename_i e he
    have := readFile_error_eq he
    subst this
    simp
  · split
    · simp
    · split
      · split
        · rename_i e he
          have := readFile_error_eq he
          subst this
          simp
        · split
          · simp
          · simp
      · simp

/-- Claim C4: load_frames fails with the no-frames error exactly when the
directory contains neither a cframe candidate file (a regular file whose
extension matches cframe case-insensitively) nor a txt candidate file (a
regular file with matching txt extension and the frame-name marker); and
whenever load_frames succeeds the returned frame sequence is non-empty. -/
theorem C4_load_frames_noframes {γ : Type} (pc : List Nat → Option γ)
    (pt toText : List Nat → Option (List Char)) (dir : List DirEntry) :
    (load_frames pc pt toText dir = .error .noFrames ↔
      (¬ ∃ e ∈ dir, e.isFile = true ∧
        ∃ x, rustExtension e.name = some x ∧ eqIgnoreAsciiCase x ("cframe".toList) = true) ∧
      (¬ ∃ e ∈ dir, e.isFile = true ∧
        (∃ x, rustExtension e.name = some x ∧ eqIgnoreAsciiCase x ("txt".toList) = true) ∧
        (("frame_".toList).isPrefixOf e.name) = true)) ∧
    (∀ fs, load_frames pc pt toText dir = .ok fs → fs ≠ []) := by
  have hciff : (∀ e ∈ dir, ¬ isCandidate ("cframe".toList) false e) ↔
      ¬ ∃ e ∈ dir, e.isFile = true ∧
        ∃ x, rustExtension e.name = some x ∧ eqIgnoreAsciiCase x ("cframe".toList) = true := by
    unfold isCandidate
    constructor
    · rintro h ⟨e, he, h1, h2⟩
      exact h e he ⟨h1, h2, by simp⟩
    · rintro h e he ⟨h1, h2, _⟩
      exact h ⟨e, he, h1, h2⟩
  have htiff : (∀ e ∈ dir, ¬ isCandidate ("txt".toList) true e) ↔
      ¬ ∃ e ∈ dir, e.isFile = true ∧
        (∃ x, rustExtension e.name = some x ∧ eqIgnoreAsciiCase x ("txt".toList) = true) ∧
        (("frame_".toList).isPrefixOf e.name) = true := by
    unfold isCandidate
    constructor
    · rintro h ⟨e, he, h1, h2, h3⟩
      exact h e he ⟨h1, h2, fun _ => h3⟩
    · rintro h e he ⟨h1, h2, h3⟩
      exact h ⟨e, he, h1, h2, h3 rfl⟩
  constructor
  · rw [← hciff, ← htiff]
    rw [← collect_frame_paths_eq_nil_iff dir ("cframe".toList) false,
      ← collect_frame_paths_eq_nil_iff dir ("txt".toList) true]
    constructor
    · intro h
      simp only [load_frames] at h
      by_cases hc : (collect_frame_paths dir ("cframe".toList) false).isEmpty = false
      · rw [if_pos hc] at h
        obtain ⟨a, _, ha⟩ := mapE_error_mem h
        exact absurd ha (buildBinaryFrame_ne_noFrames pc pt dir a)
      · rw [if_neg hc] at h
        have hcnil : collect_frame_paths dir ("cframe".toList) false = [] := by
          cases hb : (collect_frame_paths dir ("cframe".toList) false).isEmpty with
          | false => exact absurd hb hc
          | true => exact List.isEmpty_iff.mp hb
        by_cases ht : (collect_frame_paths dir ("txt".toList) true).isEmpty = true
        · exact ⟨hcnil, List.isEmpty_iff.mp ht⟩
        · rw [if_neg ht] at h
          obtain ⟨a, _, ha⟩ := mapE_error_mem h
          exact absurd ha (buildTextFrame_ne_noFrames pc toText dir a)
    · rintro ⟨hc, ht⟩
      simp only [load_frames]
      rw [if_neg (by rw [hc]; simp), if_pos (by rw [ht]; rfl)]
  · intro fs hok
    simp only [load_frames] at hok
    by_cases hc : (collect_frame_paths dir ("cframe".toList) false).isEmpty = false
    · rw [if_pos hc] at hok
      have hlen := mapE_ok_length hok
      have : collect_frame_paths dir ("cframe".toList) false ≠ [] := by
        intro hnil
        rw [hnil] at hc
        simp at hc
      intro hfs
      rw [hfs] at hlen
      exact this (List.eq_nil_of_length_eq_zero hlen.symm)
    · rw [if_neg hc] at hok
      by_cases ht : (collect_frame_paths dir ("txt".toList) true).isEmpty = true
      · rw [if_pos ht] at hok
        exact absurd hok (by simp)
      · rw [if_neg ht] at hok
        have hlen := mapE_ok_length hok
        have : collect_frame_paths dir ("txt".toList) true ≠ [] := by
          intro hnil
          rw [hnil] at ht
          exact ht rfl
        intro hfs
        rw [hfs] at hlen
        exact this (List.eq_nil_of_length_eq_zero hlen.symm)

/-- Claim C1: when the directory scan finds at least one cframe file,
every frame of a successful load comes from the cframe scan result, in
its order: the frame at position i is built from the bytes of the i-th
scanned cframe file, its color grid decoded by the cframe parser and its
text extracted by the cframe text parser from those same bytes; each
source file has the cframe extension, so no txt file is a frame source. -/
theorem C1_load_frames_binary_mode {γ : Type} (pc : List Nat → Option γ)
    (pt toText : List Nat → Option (List Char)) (dir : List DirEntry)
    (hne : collect_frame_paths dir ("cframe".toList) false ≠ [])
    (fs : List (Frame γ)) (hok : load_frames pc pt toText dir = .ok fs) :
    fs.length = (collect_frame_paths dir ("cframe".toList) false).length ∧
    ∀ i (hi : i < (collect_frame_paths dir ("cframe".toList) false).length)
      (hf : i < fs.length),
      (∃ x, rustExtension ((collect_frame_paths dir ("cframe".toList) false).get ⟨i, hi⟩) =
          some x ∧ eqIgnoreAsciiCase x ("cframe".toList) = true) ∧
      ∃ data cf t,
        readFile dir ((collect_frame_paths dir ("cframe".toList) false).get ⟨i, hi⟩) =
          .ok data ∧
        pc data = some cf ∧ pt data = some t ∧
        fs.get ⟨i, hf⟩ = Frame.with_color t cf := by
  simp only [load_frames] at hok
  rw [if_pos (by
    cases h : (collect_frame_paths dir ("cframe".toList) false).isEmpty with
    | false => rfl
    | true => exact absurd (List.isEmpty_iff.mp h) hne)] at hok
  refine ⟨mapE_ok_length hok, fun i hi hf => ?_⟩
  constructor
  · have hmem : (collect_frame_paths dir ("cframe".toList) false).get ⟨i, hi⟩ ∈
        collect_frame_paths dir ("cframe".toList) false := List.get_mem _ _ _
    obtain ⟨e, _, hname, hcand⟩ := (mem_collect_frame_paths_iff dir _ false _).mp hmem
    obtain ⟨_, ⟨x, hx, hic⟩, _⟩ := hcand
    exact ⟨x, hname ▸ hx, hic⟩
  · have hpt := mapE_ok_get hok i hi hf
    unfold buildBinaryFrame at hpt
    split at hpt
    · exact absurd hpt (by simp)
    · rename_i data hdata
      split at hpt
      · exact absurd hpt (by simp)
      · rename_i cf hcf
        split at hpt
        · exact absurd hpt (by simp)
        · rename_i t ht
          refine ⟨data, cf, t, hdata, hcf, ht, ?_⟩
          injection hpt with h
          exact h.symm

/-- The cframe decoder used in the concrete binary-mode witness. -/
def c1Pc : List Nat → Option Nat := fun _ => some 0

/-- The cframe text extractor used in the concrete binary-mode witness. -/
def c1Pt : List Nat → Option (List Char) := fun _ => some ("X".toList)

/-- The UTF-8 text decoder used in the concrete binary-mode witness. -/
def c1Tt : List Nat → Option (List Char) := fun _ => none

/-- A directory with a single cframe file, for the binary-mode witness. -/
def c1Dir : List DirEntry := [⟨"a.cframe".toList, true, [7]⟩]

/-- Witness for claim C1 at a concrete one-file directory. -/
theorem C1_load_frames_binary_mode_witness :
    load_frames c1Pc c1Pt c1Tt c1Dir = .ok [Frame.with_color ("X".toList) (0 : Nat)] ∧
    ([Frame.with_color ("X".toList) (0 : Nat)].length =
      (collect_frame_paths c1Dir ("cframe".toList) false).length) :=
  ⟨rfl, (C1_load_frames_binary_mode c1Pc c1Pt c1Tt c1Dir (by decide) _ rfl).1⟩

/-- The cframe decoder of the concrete paired-directory example. -/
def c2Pc : List Nat → Option Nat := fun _ => some 5

/-- The cframe text extractor of the concrete paired-directory example. -/
def c2Pt : List Nat → Option (List Char) := fun _ => some ("BIN".toList)

/-- The UTF-8 text decoder of the concrete paired-directory example. -/
def c2Tt : List Nat → Option (List Char) := fun _ => some ("TXT".toList)

/-- The canonical paired directory: a text frame file and a binary file
sharing its stem, both regular files. -/
def c2Dir : List DirEntry :=
  [⟨"frame_1.txt".toList, true, [1]⟩, ⟨"frame_1.cframe".toList, true, [9]⟩]

/-- Claim C2 counterexample: on the canonical paired input, a text frame
file with a binary file sharing its stem, load_frames is not in text-only
mode at all: the presence of the regular cframe file puts the whole load
into binary mode, and the single loaded frame takes both its grid and its
text from the binary bytes; the text-file content is not used. -/
theorem C2_counterexample_paired_is_binary_mode :
    load_frames c2Pc c2Pt c2Tt c2Dir = .ok [Frame.with_color ("BIN".toList) (5 : Nat)] ∧
    ("BIN".toList) ≠ normalize_frame_text ("TXT".toList) := by
  constructor
  · rfl
  · decide

/-- Claim C2 (amended): the paired construction is unreachable for
directories of regular files. In text-only mode (no file selected by the
cframe scan) no txt file can have a regular sibling named stem.cframe,
since such a sibling would put the load into binary mode; consequently
every frame of a successful text-mode load is text-only, its content the
normalized decoded text of its txt file, and no frame carries a color
grid. -/
theorem C2_load_frames_text_mode_amended {γ : Type} (pc : List Nat → Option γ)
    (pt toText : List Nat → Option (List Char)) (dir : List DirEntry)
    (hreg : ∀ e ∈ dir, e.isFile = true)
    (hnoc : collect_frame_paths dir ("cframe".toList) false = [])
    (fs : List (Frame γ)) (hok : load_frames pc pt toText dir = .ok fs) :
    ∀ f ∈ fs, f.cframe = none ∧
      ∃ name data t, name ∈ collect_frame_paths dir ("txt".toList) true ∧
        readFile dir name = .ok data ∧ toText data = some t ∧
        f = Frame.text_only (normalize_frame_text t) := by
  simp only [load_frames] at hok
  rw [if_neg (by rw [hnoc]; simp)] at hok
  split at hok
  · exact absurd hok (by simp)
  · intro f hf
    obtain ⟨name, hmem, hbuild⟩ := mapE_ok_mem hok hf
    unfold buildTextFrame at hbuild
    split at hbuild
    · exact absurd hbuild (by simp)
    · rename_i data hdata
      split at hbuild
      · exact absurd hbuild (by simp)
      · rename_i t ht
        have hex : ¬ existsEntry dir (rustFileStem name ++ '.' :: "cframe".toList) = true := by
          intro hexb
          obtain ⟨e, he, hename⟩ := List.any_eq_true.mp hexb
          have hename : e.name = rustFileStem name ++ '.' :: "cframe".toList :=
            of_decide_eq_true hename
          obtain ⟨e2, _, _, hcand⟩ := (mem_collect_frame_paths_iff dir _ true name).mp hmem
          rename_i hname2
          obtain ⟨_, ⟨x, hx, _⟩, _⟩ := hcand
          have hstem : rustFileStem name ≠ [] :=
            rustFileStem_ne_nil_of_ext (hname2 ▸ hx)
          have hcand2 : isCandidate ("cframe".toList) false e := by
            refine ⟨hreg e he, ?_, by simp⟩
            refine ⟨"cframe".toList, ?_, by decide⟩
            rw [hename]
            exact rustExtension_stem_cframe _ hstem
          exact ((collect_frame_paths_eq_nil_iff dir _ false).mp hnoc) e he hcand2
        rw [if_neg hex] at hbuild
        cases hbuild
        exact ⟨rfl, name, data, t, hmem, hdata, ht, rfl⟩

/-- The UTF-8 text decoder of the concrete text-only witness. -/
def c2Tt2 : List Nat → Option (List Char) := fun _ => some ("TXT".toList)

/-- A directory with a single text frame file and no binary files. -/
def c2Dir2 : List DirEntry := [⟨"frame_1.txt".toList, true, [1]⟩]

/-- Witness for the amended claim C2 at a concrete text-only directory. -/
theorem C2_load_frames_text_mode_amended_witness :
    load_frames c2Pc c2Pt c2Tt2 c2Dir2 =
      .ok [Frame.text_only (normalize_frame_text ("TXT".toList))] ∧
    (Frame.text_only (γ := Nat) (normalize_frame_text ("TXT".toList))).cframe = none :=
  ⟨rfl,
    (C2_load_frames_text_mode_amended c2Pc c2Pt c2Tt2 c2Dir2 (by decide) (by decide) _ rfl _
      (List.mem_cons_self _ _)).1⟩

/-- A decoded color grid as the renderer sees it, per the accessor
contract of the core library: dimensions plus the three per-cell
accessors should_skip, rgb_at and char_at (the latter two partial,
returning none outside the grid). -/
structure CFrame where
  width : Nat
  height : Nat
  should_skip : Nat → Nat → Bool
  rgb_at : Nat → Nat → Option (Nat × Nat × Nat)
  char_at : Nat → Nat → Option Nat

/-- rgb_at with the renderer default, as unwrap_or((255,255,255)). -/
def rgbAtD (cf : CFrame) (row col : Nat) : Nat × Nat × Nat :=
  (cf.rgb_at row col).getD (255, 255, 255)

/-- char_at with the renderer default, as unwrap_or(space). -/
def charAtD (cf : CFrame) (row col : Nat) : Nat :=
  (cf.char_at row col).getD 32

/-- One colored run queued by render_frame: its row, start column, RGB
color and the bytes of its text. -/
structure Run where
  row : Nat
  startCol : Nat
  rgb : Nat × Nat × Nat
  text : List Nat
deriving DecidableEq

/-- The inner run-extension loop of render_frame, fuel-bounded: starting
at a column, collect characters while inside the drawn width, not a skip
cell, and of the same color; returns the collected bytes and the column
where the run stopped. The fuel is the remaining width, which bounds the
iteration count of the source loop. -/
def takeRunAux (cf : CFrame) (row : Nat) (rgb : Nat × Nat × Nat) :
    Nat → Nat → List Nat × Nat
  | 0, col => ([], col)
  | fuel + 1, col =>
    if cf.should_skip row col then ([], col)
    else if rgbAtD cf row col ≠ rgb then ([], col)
    else
      let r := takeRunAux cf row rgb fuel (col + 1)
      (charAtD cf row col :: r.1, r.2)

/-- The inner run-extension loop of render_frame from a column, within a
drawn width. -/
def takeRun (cf : CFrame) (row : Nat) (rgb : Nat × Nat × Nat) (width col : Nat) :
    List Nat × Nat :=
  takeRunAux cf row rgb (width - col) col

/-- The per-row loop of render_frame, fuel-bounded: skip cells are passed
over; at a non-skip cell a run is started with that cell's color and
character and extended by takeRun, then scanning resumes where the run
stopped. Every iteration advances the column, so a fuel of the row width
covers the whole loop. -/
def buildRowAux (cf : CFrame) (row width : Nat) : Nat → Nat → List Run
  | 0, _ => []
  | fuel + 1, col =>
    if col < width then
      if cf.should_skip row col then buildRowAux cf row width fuel (col + 1)
      else
        let rgb := rgbAtD cf row col
        let r := takeRun cf row rgb width (col + 1)
        ⟨row, col, rgb, charAtD cf row col :: r.1⟩ :: buildRowAux cf row width fuel r.2
    else []

/-- The colored runs drawn for one row of the frame. -/
def buildRow (cf : CFrame) (row width : Nat) : List Run :=
  buildRowAux cf row width width 0

/-- The colored runs queued by render_frame for a color-backed frame on a
terminal of the given size: the drawn region is the frame clipped to the
terminal width and to the height above the status line, and each drawn
row contributes its runs. -/
def render_frame_runs (cf : CFrame) (termWidth termHeight : Nat) : List Run :=
  let drawWidth := min cf.width termWidth
  let drawHeight := min cf.height (termHeight - 1)
  (List.range drawHeight).flatMap (fun row => buildRow cf row drawWidth)

theorem takeRunAux_spec (cf : CFrame) (row : Nat) (rgb : Nat × Nat × Nat) :
    ∀ fuel col,
      (takeRunAux cf row rgb fuel col).2 = col + (takeRunAux cf row rgb fuel col).1.length ∧
      ∀ k, k < (takeRunAux cf row rgb fuel col).1.length →
        cf.should_skip row (col + k) = false := by
  intro fuel
  induction fuel with
  | zero => intro col; simp [takeRunAux]
  | succ n ih =>
    intro col
    unfold takeRunAux
    by_cases hs : cf.should_skip row col = true
    · rw [if_pos hs]; simp
    · rw [if_neg hs]
      by_cases hc : rgbAtD cf row col ≠ rgb
      · rw [if_pos hc]; simp
      · rw [if_neg hc]
        obtain ⟨ih1, ih2⟩ := ih (col + 1)
        constructor
        · simp only [List.length_cons]
          omega
        · intro k hk
          cases k with
          | zero =>
            simpa using Bool.eq_false_iff.mpr hs
          | succ j =>
            have hj : j < (takeRunAux cf row rgb n (col + 1)).1.length := by
              simpa using hk
            have := ih2 j hj
            have harith : col + (j + 1) = (col + 1) + j := by omega
            rw [harith]
            exact this

theorem buildRowAux_spec (cf : CFrame) (row width : Nat) :
    ∀ fuel col, ∀ r ∈ buildRowAux cf row width fuel col,
      r.row = row ∧ col ≤ r.startCol ∧
      ∀ k, k < r.text.length → cf.should_skip row (r.startCol + k) = false := by
  intro fuel
  induction fuel with
  | zero => intro col r hr; simp [buildRowAux] at hr
  | succ n ih =>
    intro col r hr
    unfold buildRowAux at hr
    by_cases hcw : col < width
    · rw [if_pos hcw] at hr
      by_cases hs : cf.should_skip row col = true
      · rw [if_pos hs] at hr
        obtain ⟨h1, h2, h3⟩ := ih (col + 1) r hr
        exact ⟨h1, by omega, h3⟩
      · rw [if_neg hs] at hr
        rcases List.mem_cons.mp hr with hhead | htail
        · subst hhead
          refine ⟨rfl, Nat.le_refl _, ?_⟩
          intro k hk
          cases k with
          | zero => simpa using Bool.eq_false_iff.mpr hs
          | succ j =>
            obtain ⟨_, htr⟩ := takeRunAux_spec cf row (rgbAtD cf row col) (width - (col + 1)) (col + 1)
            have hj : j < (takeRun cf row (rgbAtD cf row col) width (col + 1)).1.length := by
              simpa using hk
            have := htr j (by simpa [takeRun] using hj)
            have harith : col + (j + 1) = (col + 1) + j := by omega
            rw [harith]
            exact this
        · obtain ⟨h1, h2, h3⟩ := ih _ r htail
          refine ⟨h1, ?_, h3⟩
          have hge : col + 1 ≤ (takeRun cf row (rgbAtD cf row col) width (col + 1)).2 := by
            obtain ⟨heq, _⟩ := takeRunAux_spec cf row (rgbAtD cf row col) (width - (col + 1)) (col + 1)
            simp only [takeRun]
            omega
          omega
    · rw [if_neg hcw] at hr
      simp at hr

/-- Claim C6: for a color-backed frame, render_frame never prints a skip
cell: every character position of every queued colored run lies on a cell
whose should_skip accessor answers false; skip cells end or are passed
over by runs and contribute no character. -/
theorem C6_render_frame_skips_suppressed (cf : CFrame) (termWidth termHeight : Nat) :
    ∀ r ∈ render_frame_runs cf termWidth termHeight,
      ∀ k, k < r.text.length → cf.should_skip r.row (r.startCol + k) = false := by
  intro r hr k hk
  unfold render_frame_runs at hr
  obtain ⟨row, _, hrow⟩ := List.mem_flatMap.mp hr
  obtain ⟨h1, _, h3⟩ := buildRowAux_spec cf row (min cf.width termWidth) _ 0 r hrow
  rw [h1]
  exact h3 k hk

/-- The concrete grid of the render witness: one row of three cells with
the middle cell marked skip. -/
def c6Grid : CFrame :=
  ⟨3, 1, fun _ col => decide (col = 1), fun _ _ => some (1, 2, 3), fun _ _ => some 65⟩

/-- Witness for claim C6 on a concrete grid: the run starting at column 0
of the one-row grid stops before the skip cell at column 1, and the
theorem applied there confirms its only cell is not a skip cell. -/
theorem C6_render_frame_skips_suppressed_witness :
    (⟨0, 0, (1, 2, 3), [65]⟩ : Run) ∈ render_frame_runs c6Grid 80 24 ∧
    c6Grid.should_skip 0 (0 + 0) = false :=
  ⟨by decide,
    C6_render_frame_skips_suppressed c6Grid 80 24 ⟨0, 0, (1, 2, 3), [65]⟩ (by decide) 0
      (by decide)⟩

/-- Playback state of the controller: Playing, Paused or Finished. -/
inductive PlaybackState where
  | playing
  | paused
  | finished
deriving DecidableEq

/-- Loop policy of the controller: loop forever or play once. -/
inductive LoopMode where
  | loop
  | once
deriving DecidableEq

/-- Modelled from the spec: AnimationController lives in the external
core-view library, not under src. Its observable state per the spec data
model: a positive fps, the frame count, the current index, the playback
state and the loop mode. -/
structure AnimationController where
  fps : Nat
  frame_count : Nat
  current_frame : Nat
  state : PlaybackState
  loop_mode : LoopMode
deriving DecidableEq

/-- Modelled from the spec: whether the controller is in the Playing
state. -/
def AnimationController.is_playing (c : AnimationController) : Bool :=
  decide (c.state = .playing)

/-- Modelled from the spec: the frame interval, 1000 / fps by integer
division. -/
def AnimationController.interval_ms (c : AnimationController) : Nat :=
  1000 / c.fps

/-- Modelled from the spec: toggle flips Playing and Paused, and resumes
Playing from Finished. -/
def AnimationController.toggle (c : AnimationController) : AnimationController :=
  match c.state with
  | .playing => { c with state := .paused }
  | .paused => { c with state := .playing }
  | .finished => { c with state := .playing }

/-- Modelled from the spec: advance one frame, clamped to the last index;
the state is unchanged. -/
def AnimationController.step_forward (c : AnimationController) : AnimationController :=
  { c with current_frame := min (c.current_frame + 1) (c.frame_count - 1) }

/-- Modelled from the spec: retreat one frame, clamped at zero; the state
is unchanged. -/
def AnimationController.step_backward (c : AnimationController) : AnimationController :=
  { c with current_frame := c.current_frame - 1 }

/-- Modelled from the spec: jump to an index, clamped into the valid
range; the state is unchanged. -/
def AnimationController.set_current_frame (c : AnimationController) (i : Nat) :
    AnimationController :=
  { c with current_frame := min i (c.frame_count - 1) }

/-- Modelled from the spec: set the playback rate, saturating at a
minimum of one. -/
def AnimationController.set_fps (c : AnimationController) (v : Nat) : AnimationController :=
  { c with fps := max v 1 }

/-- Modelled from the spec: set the loop policy only. -/
def AnimationController.set_loop_mode (c : AnimationController) (m : LoopMode) :
    AnimationController :=
  { c with loop_mode := m }

/-- Modelled from the spec: one time-driven advancement while Playing.
Inside the sequence the index advances by one; crossing past the last
index wraps to zero and stays Playing under Loop, or clamps to the last
index and becomes Finished under Once. Returns whether the index actually
changed, paired with the new controller. -/
def AnimationController.tick (c : AnimationController) : Bool × AnimationController :=
  match c.state with
  | .playing =>
    if c.current_frame + 1 < c.frame_count then
      (true, { c with current_frame := c.current_frame + 1 })
    else
      match c.loop_mode with
      | .loop => (decide (c.current_frame ≠ 0), { c with current_frame := 0 })
      | .once => (false, { c with state := .finished })
  | _ => (false, c)

/-- The keys the player loop reacts to, from the key match in run_player. -/
inductive PlayerKey where
  | quit
  | space
  | right
  | left
  | home
  | toEnd
  | plus
  | minus
  | loopKey
  | unknown
deriving DecidableEq

/-- A terminal event as seen by the player loop: a resize, a key press or
release, or any other event. -/
inductive PlayerEvent where
  | resize
  | key (code : PlayerKey) (isRelease : Bool)
  | other
deriving DecidableEq

/-- The result of handling one event in the player loop: either the quit
break, or the continuing controller, last-tick instant, whether a redraw
was requested, and whether the rest of the iteration is skipped (the
continue taken on key-release events). -/
inductive EventOutcome where
  | quit
  | cont (ctrl : AnimationController) (lastTick : Nat) (setRedraw : Bool) (skipRest : Bool)
deriving DecidableEq

/-- The event match of run_player: resize requests a redraw and nothing
else; a key release is skipped by continue; q and Escape break; space
toggles and resets the tick clock; arrows step; Home and End jump; plus
and minus change fps and reset the tick clock; the loop key flips the
loop mode; anything else is ignored. -/
def handleEvent (c : AnimationController) (lastTick now : Nat) :
    PlayerEvent → EventOutcome
  | .resize => .cont c lastTick true false
  | .other => .cont c lastTick false false
  | .key code isRelease =>
    if isRelease then .cont c lastTick false true
    else
      match code with
      | .quit => .quit
      | .space => .cont c.toggle now true false
      | .right => .cont c.step_forward lastTick true false
      | .left => .cont c.step_backward lastTick true false
      | .home => .cont (c.set_current_frame 0) lastTick true false
      | .toEnd => .cont (c.set_current_frame (c.frame_count - 1)) lastTick true false
      | .plus => .cont (c.set_fps (c.fps + 1)) now true false
      | .minus => .cont (c.set_fps (c.fps - 1)) now true false
      | .loopKey =>
        .cont (c.set_loop_mode (match c.loop_mode with | .loop => .once | .once => .loop))
          lastTick true false
      | .unknown => .cont c lastTick false false

/-- The player-loop state threaded across iterations: the controller, the
instant of the last tick, and the redraw flag. -/
structure LoopState where
  ctrl : AnimationController
  lastTick : Nat
  needsRedraw : Bool
deriving DecidableEq

/-- What one player-loop iteration produced: whether the loop broke, the
new loop state, the events still pending, and how many times tick was
invoked. -/
structure IterResult where
  quit : Bool
  st : LoopState
  pending : List PlayerEvent
  ticks : Nat
deriving DecidableEq

/-- The tick check at the bottom of the player loop: while Playing and
once a full frame interval has elapsed since the last tick, invoke tick
exactly once, request a redraw whether or not the index changed, and
reset the tick clock to the current instant; otherwise do nothing. -/
def tickPhase (c : AnimationController) (lastTick : Nat) (nr : Bool) (now : Nat)
    (pending : List PlayerEvent) : IterResult :=
  if c.is_playing = true ∧ c.interval_ms ≤ now - lastTick then
    ⟨false, ⟨(c.tick).2, now, true⟩, pending, 1⟩
  else ⟨false, ⟨c, lastTick, nr⟩, pending, 0⟩

/-- One iteration of the player loop after the draw at its top (which
clears the redraw flag and touches no state): poll reads at most one
pending event and handles it; a quit break ends the loop before the tick
check; a key-release continue skips the tick check; otherwise, and also
when no event is pending, the tick check runs on the post-event
controller and clock. -/
def loopIter (st : LoopState) (pending : List PlayerEvent) (now : Nat) : IterResult :=
  match pending with
  | [] => tickPhase st.ctrl st.lastTick false now []
  | e :: rest =>
    match handleEvent st.ctrl st.lastTick now e with
    | .quit => ⟨true, ⟨st.ctrl, st.lastTick, false⟩, rest, 0⟩
    | .cont c lt redraw skip =>
      if skip then ⟨false, ⟨c, lt, redraw⟩, rest, 0⟩
      else tickPhase c lt redraw now rest

/-- Claim C7: in every player-loop iteration tick is invoked at most
once; whenever it was invoked, the tick clock ends at the current
instant; the tick check fires exactly when the post-event controller is
Playing and at least one full interval has elapsed since the last tick;
on firing it applies tick once and resets the clock to the current
instant no matter how much time passed; and one tick advances the frame
index by at most one, so a long stall gains at most one frame per
iteration with no catch-up skipping. -/
theorem C7_tick_discipline (st : LoopState) (pending : List PlayerEvent) (now : Nat) :
    (loopIter st pending now).ticks ≤ 1 ∧
    ((loopIter st pending now).ticks = 1 → (loopIter st pending now).st.lastTick = now) ∧
    (∀ (c : AnimationController) (lt : Nat) (nr : Bool) (rest : List PlayerEvent),
      (tickPhase c lt nr now rest).ticks = 1 ↔
        c.is_playing = true ∧ c.interval_ms ≤ now - lt) ∧
    (∀ (c : AnimationController) (lt : Nat) (nr : Bool) (rest : List PlayerEvent),
      (tickPhase c lt nr now rest).ticks = 1 →
        (tickPhase c lt nr now rest).st.ctrl = (c.tick).2 ∧
        (tickPhase c lt nr now rest).st.lastTick = now) ∧
    (∀ c : AnimationController, ((c.tick).2).current_frame ≤ c.current_frame + 1) := by
  refine ⟨?_, ?_, ?_, ?_, ?_⟩
  · unfold loopIter
    split
    · unfold tickPhase; split <;> simp
    · split
      · simp
      · split
        · simp
        · unfold tickPhase; split <;> simp
  · unfold loopIter
    split
    · unfold tickPhase
      split
      · intro _; rfl
      · intro h; simp at h
    · split
      · intro h; simp at h
      · split
        · intro h; simp at h
        · unfold tickPhase
          split
          · intro _; rfl
          · intro h; simp at h
  · intro c lt nr rest
    unfold tickPhase
    split
    · rename_i hcond
      simp [hcond]
    · rename_i hcond
      simp [hcond]
  · intro c lt nr rest
    unfold tickPhase
    split
    · intro _; exact ⟨rfl, rfl⟩
    · intro h; simp at h
  · intro c
    unfold AnimationController.tick
    split
    · split
      · simp
      · split
        · simp
        · simp
    · simp

/-- The loop state of the tick-discipline witness: a playing controller
at 10 fps whose clock last ticked at instant 0. -/
def c7State : LoopState := ⟨⟨10, 5, 0, PlaybackState.playing, LoopMode.loop⟩, 0, false⟩

/-- Witness for claim C7: with no pending event at instant 150, well past
the 100 ms interval, the iteration ticks and resets the clock to 150. -/
theorem C7_tick_discipline_witness :
    (loopIter c7State [] 150).ticks ≤ 1 ∧ (loopIter c7State [] 150).st.lastTick = 150 :=
  ⟨(C7_tick_discipline c7State [] 150).1,
    (C7_tick_discipline c7State [] 150).2.1 (by decide)⟩

/-- The loop state of the event-reordering counterexample: a playing
controller at 24 fps whose clock last ticked at instant 0. -/
def c8State : LoopState := ⟨⟨24, 10, 0, PlaybackState.playing, LoopMode.loop⟩, 0, false⟩

/-- Claim C8 counterexample: with two events pending before the elapsed
tick deadline (instant 100, interval 41 ms), one iteration reads only the
first event and then fires the tick, leaving the second pending: an input
event received before the tick deadline was reordered after that tick. -/
theorem C8_counterexample_second_event_after_tick :
    (loopIter c8State [PlayerEvent.resize, PlayerEvent.resize] 100).ticks = 1 ∧
    (loopIter c8State [PlayerEvent.resize, PlayerEvent.resize] 100).pending =
      [PlayerEvent.resize] := by
  decide

/-- Claim C8 (amended): each iteration reads at most one pending event
(the oldest), and that event is fully processed before the tick check of
the same iteration: a quit event breaks the loop with no tick, and a
space press on a playing controller pauses it so that no tick fires that
iteration even when the interval has elapsed; later pending events stay
queued and may be handled only after this iteration's tick. -/
theorem C8_event_before_tick_amended (st : LoopState) (now : Nat) (e : PlayerEvent)
    (rest : List PlayerEvent) :
    ((loopIter st (e :: rest) now).pending = rest) ∧
    (e = PlayerEvent.key PlayerKey.quit false →
      (loopIter st (e :: rest) now).quit = true ∧
      (loopIter st (e :: rest) now).ticks = 0) ∧
    (e = PlayerEvent.key PlayerKey.space false →
      st.ctrl.state = PlaybackState.playing →
      (loopIter st (e :: rest) now).ticks = 0 ∧
      (loopIter st (e :: rest) now).st.ctrl.state = PlaybackState.paused) := by
  refine ⟨?_, ?_, ?_⟩
  · cases h : handleEvent st.ctrl st.lastTick now e with
    | quit => simp [loopIter, h]
    | cont c lt redraw skip =>
      cases skip with
      | true => simp [loopIter, h]
      | false =>
        simp only [loopIter, h]
        unfold tickPhase
        split
        · simp
        · by_cases hcond : c.is_playing = true ∧ c.interval_ms ≤ now - lt
          · rw [if_pos hcond]
          · rw [if_neg hcond]
  · intro he
    subst he
    exact ⟨rfl, rfl⟩
  · intro he hplay
    subst he
    have htog : st.ctrl.toggle.state = PlaybackState.paused := by
      unfold AnimationController.toggle
      rw [hplay]
    constructor
    · simp [loopIter, handleEvent, tickPhase, AnimationController.is_playing, htog]
    · simp [loopIter, handleEvent, tickPhase, AnimationController.is_playing, htog]

/-- The loop state of the amended-claim witness: a playing controller at
24 fps, three frames in, clock last reset at instant 0. -/
def c8bState : LoopState := ⟨⟨24, 10, 3, PlaybackState.playing, LoopMode.loop⟩, 0, false⟩

/-- Witness for the amended claim C8: a space press handled at instant
100 (past the 41 ms deadline) pauses the controller before the tick
check, so the iteration fires no tick. -/
theorem C8_event_before_tick_amended_witness :
    (loopIter c8bState [PlayerEvent.key PlayerKey.space false] 100).ticks = 0 ∧
    (loopIter c8bState [PlayerEvent.key PlayerKey.space false] 100).st.ctrl.state =
      PlaybackState.paused :=
  (C8_event_before_tick_amended c8bState 100 (PlayerEvent.key PlayerKey.space false) []).2.2
    rfl rfl

/-- Claim C9: handling a resize event returns the controller value
untouched (current frame, fps, playback state and loop mode all
preserved), keeps the tick clock, requests only a redraw, neither quits
nor skips; and on a non-playing controller the whole iteration around a
resize changes nothing but the redraw flag. -/
theorem C9_resize_redraw_only :
    (∀ (c : AnimationController) (lastTick now : Nat),
      handleEvent c lastTick now PlayerEvent.resize = EventOutcome.cont c lastTick true false) ∧
    (∀ (st : LoopState) (rest : List PlayerEvent) (now : Nat),
      st.ctrl.is_playing = false →
        loopIter st (PlayerEvent.resize :: rest) now =
          ⟨false, ⟨st.ctrl, st.lastTick, true⟩, rest, 0⟩) := by
  constructor
  · intro c lastTick now
    rfl
  · intro st rest now h
    simp [loopIter, handleEvent, tickPhase, h]

/-- The loop state of the resize witness: a paused controller. -/
def c9State : LoopState := ⟨⟨24, 10, 2, PlaybackState.paused, LoopMode.once⟩, 7, false⟩

/-- Witness for claim C9: an iteration handling a resize on the paused
controller only sets the redraw flag. -/
theorem C9_resize_redraw_only_witness :
    loopIter c9State [PlayerEvent.resize] 100 =
      ⟨false, ⟨c9State.ctrl, c9State.lastTick, true⟩, [], 0⟩ :=
  C9_resize_redraw_only.2 c9State [] 100 (by decide)

/-- Witness for the amended claim C3: an input with no trailing newline
gains exactly one appended newline. -/
theorem C3_normalize_frame_text_amended_witness :
    normalize_frame_text ("ab".toList) = "ab".toList ++ ['\n'] :=
  ((C3_normalize_frame_text_amended ("ab".toList)).2.1 (by decide)).1

/-- The cframe decoder of the empty-directory witness. -/
def c4Pc : List Nat → Option Nat := fun _ => some 0

/-- The cframe text extractor of the empty-directory witness. -/
def c4Pt : List Nat → Option (List Char) := fun _ => some []

/-- The UTF-8 text decoder of the empty-directory witness. -/
def c4Tt : List Nat → Option (List Char) := fun _ => some []

/-- Witness for claim C4: an empty directory loads to the no-frames
error. -/
theorem C4_load_frames_noframes_witness :
    load_frames c4Pc c4Pt c4Tt [] = .error .noFrames :=
  (C4_load_frames_noframes c4Pc c4Pt c4Tt []).1.mpr (by decide)

/-- Witness for claim C5: two keys with equal index but distinct names
are distinct sort keys. -/
theorem C5_collect_frame_paths_ordering_witness :
    ((1, "a".toList) : Nat × List Char) ≠ ((1, "b".toList) : Nat × List Char) :=
  C5_collect_frame_paths_ordering.2.2.2.1 (1, "a".toList) (1, "b".toList) (by decide)

/-- The directory of the membership witness: a frame text file, a text
file without the frame marker, and an extensionless file. -/
def c10Dir : List DirEntry :=
  [⟨"frame_1.txt".toList, true, []⟩,
   ⟨"notes.txt".toList, true, []⟩,
   ⟨"README".toList, true, []⟩]

/-- Witness for claim C10: in the concrete directory, the marked text
file is selected by the txt scan. -/
theorem C10_collect_frame_paths_membership_witness :
    ("frame_1.txt".toList) ∈ collect_frame_paths c10Dir ("txt".toList) true :=
  (C10_collect_frame_paths_membership c10Dir ("txt".toList) true ("frame_1.txt".toList)).mpr
    (by decide)

end Cascii
